import Mathlib

/-!
Verification of the ring buffer implemented in
`src/utils/ring_buffer/ring_buffer.c` (overwrite-on-full variant with an
explicit `is_full` flag and modulo index arithmetic).

The C struct `ring_buf_t` is embedded as the structure `RingBuf`: the
caller-supplied byte array `uint8_t* buffer` is modelled as a total map
`Nat → Nat` from indices to stored byte values, and `size_t` fields become
`Nat`.  Each C function becomes a Lean function of the same name; the
fallible `ring_buffer_read_byte` (which returns `-1` and leaves `*data`
unset on an empty buffer, `0` and the byte otherwise) returns
`Option Nat × RingBuf`, where `none` stands for the `-1` result and
`some b` for the `0` result with `*data = b`.
-/

namespace RingBufferC

/-- Embedding of `struct ring_buf_t`: backing storage, capacity, read index
(tail), write index (head) and the explicit full flag. -/
structure RingBuf where
  buffer : Nat → Nat
  capacity : Nat
  tail : Nat
  head : Nat
  is_full : Bool

/-- Embedding of `advance_headtail_value`: `(value + 1) % capacity`. -/
def advance_headtail_value (value capacity : Nat) : Nat :=
  (value + 1) % capacity

/-- Embedding of `ring_buffer_is_full`: returns the stored flag. -/
def ring_buffer_is_full (rb : RingBuf) : Bool :=
  rb.is_full

/-- Embedding of `ring_buffer_is_empty`: not full and `head == tail`. -/
def ring_buffer_is_empty (rb : RingBuf) : Bool :=
  !(ring_buffer_is_full rb) && (rb.head == rb.tail)

/-- Embedding of the static helper `advance_head_pointer`: if the buffer is
full the tail is advanced too, then the head advances, then the full flag is
recomputed as `head == tail`. -/
def advance_head_pointer (rb : RingBuf) : RingBuf :=
  let rb1 := if ring_buffer_is_full rb then
      { rb with tail := advance_headtail_value rb.tail rb.capacity }
    else rb
  let rb2 := { rb1 with head := advance_headtail_value rb1.head rb1.capacity }
  { rb2 with is_full := rb2.head == rb2.tail }

/-- Embedding of `ring_buffer_reset`: head, tail and full flag are cleared;
the backing storage is untouched. -/
def ring_buffer_reset (rb : RingBuf) : RingBuf :=
  { rb with head := 0, tail := 0, is_full := false }

/-- Embedding of `ring_buffer_init`: binds the storage and the capacity and
then resets the new instance (the C code allocates the struct, fills
`buffer` and `capacity`, and calls `ring_buffer_reset`). -/
def ring_buffer_init (buffer : Nat → Nat) (size : Nat) : RingBuf :=
  ring_buffer_reset { buffer := buffer, capacity := size, tail := 0, head := 0, is_full := false }

/-- Embedding of `ring_buffer_size`: returns `capacity` when full, otherwise
`head - tail` or `capacity + head - tail` depending on the index order. -/
def ring_buffer_size (rb : RingBuf) : Nat :=
  if !(ring_buffer_is_full rb) then
    if rb.head ≥ rb.tail then rb.head - rb.tail
    else rb.capacity + rb.head - rb.tail
  else rb.capacity

/-- Embedding of `ring_buffer_capacity`. -/
def ring_buffer_capacity (rb : RingBuf) : Nat :=
  rb.capacity

/-- Embedding of `ring_buffer_write_byte`: stores the byte at `head` and
advances the head pointer (evicting the oldest byte when full). -/
def ring_buffer_write_byte (rb : RingBuf) (data : Nat) : RingBuf :=
  advance_head_pointer { rb with buffer := fun j => if j = rb.head then data else rb.buffer j }

/-- Embedding of `ring_buffer_read_byte`: on a non-empty buffer returns the
byte at `tail`, advances the tail and clears the full flag (C result `0`);
on an empty buffer returns `none` (C result `-1`) and the unchanged state. -/
def ring_buffer_read_byte (rb : RingBuf) : Option Nat × RingBuf :=
  if !(ring_buffer_is_empty rb) then
    (some (rb.buffer rb.tail),
     { rb with tail := advance_headtail_value rb.tail rb.capacity, is_full := false })
  else (none, rb)

/-! Derived notions used to state the claims. -/

/-- Validity invariant of a buffer state: positive capacity, both indices in
range, and the full flag only set when the indices coincide. -/
def Inv (rb : RingBuf) : Prop :=
  0 < rb.capacity ∧ rb.head < rb.capacity ∧ rb.tail < rb.capacity ∧
    (rb.is_full = true → rb.head = rb.tail)

instance (rb : RingBuf) : Decidable (Inv rb) := by
  unfold Inv; infer_instance

/-- Abstraction function: the logical FIFO content of the buffer, oldest
byte first, read off the storage starting at `tail`. -/
def toList (rb : RingBuf) : List Nat :=
  (List.range (ring_buffer_size rb)).map (fun i => rb.buffer ((rb.tail + i) % rb.capacity))

/-- States reachable through the public API from a valid initialization. -/
inductive Reachable : RingBuf → Prop where
  | init (buffer : Nat → Nat) (size : Nat) (h : 0 < size) :
      Reachable (ring_buffer_init buffer size)
  | write (rb : RingBuf) (d : Nat) (h : Reachable rb) :
      Reachable (ring_buffer_write_byte rb d)
  | read (rb : RingBuf) (h : Reachable rb) :
      Reachable (ring_buffer_read_byte rb).2
  | reset (rb : RingBuf) (h : Reachable rb) :
      Reachable (ring_buffer_reset rb)

/-- Writes a whole list of bytes, one `ring_buffer_write_byte` call each. -/
def writeList (rb : RingBuf) (ds : List Nat) : RingBuf :=
  ds.foldl ring_buffer_write_byte rb

/-- Performs `n` calls of `ring_buffer_read_byte`, collecting the results. -/
def readN (rb : RingBuf) : Nat → List (Option Nat) × RingBuf
  | 0 => ([], rb)
  | Nat.succ n =>
      let r := ring_buffer_read_byte rb
      let p := readN r.2 n
      (r.1 :: p.1, p.2)

/-- One API call in a trace: a write of a byte, a read, or a reset. -/
inductive Op where
  | write (d : Nat)
  | read
  | reset
deriving DecidableEq

/-- Applies one API call to the state. -/
def applyOp (rb : RingBuf) : Op → RingBuf
  | Op.write d => ring_buffer_write_byte rb d
  | Op.read => (ring_buffer_read_byte rb).2
  | Op.reset => ring_buffer_reset rb

/-- Runs a trace of API calls. -/
def runOps : RingBuf → List Op → RingBuf
  | rb, [] => rb
  | rb, op :: ops => runOps (applyOp rb op) ops

/-- Number of `ring_buffer_write_byte` calls in a trace (in this variant
every write call succeeds and stores its byte). -/
def numWrites : List Op → Nat
  | [] => 0
  | Op.write _ :: ops => numWrites ops + 1
  | _ :: ops => numWrites ops

/-- Number of `ring_buffer_read_byte` calls in a trace. -/
def numReads : List Op → Nat
  | [] => 0
  | Op.read :: ops => numReads ops + 1
  | _ :: ops => numReads ops

/-- Number of successful reads (result `0`) along the run of a trace. -/
def succReads : RingBuf → List Op → Nat
  | _, [] => 0
  | rb, Op.write d :: ops => succReads (ring_buffer_write_byte rb d) ops
  | rb, Op.read :: ops =>
      (if (ring_buffer_read_byte rb).1 = none then 0 else 1) +
        succReads (ring_buffer_read_byte rb).2 ops
  | rb, Op.reset :: ops => succReads (ring_buffer_reset rb) ops

/-- Holds when along the run of a trace the number of unread bytes never
exceeds the capacity (the bound the size-accounting claim imposes). -/
def sizeWithinCapacity : RingBuf → List Op → Bool
  | _, [] => true
  | rb, op :: ops =>
      (decide (ring_buffer_size (applyOp rb op) ≤ ring_buffer_capacity rb)) &&
        sizeWithinCapacity (applyOp rb op) ops

/-- Holds when the trace consists of write and read calls only and no write
call happens while the buffer is full (so no byte is ever overwritten). -/
def noFullWrite : RingBuf → List Op → Bool
  | _, [] => true
  | rb, Op.write d :: ops =>
      (!(ring_buffer_is_full rb)) && noFullWrite (ring_buffer_write_byte rb d) ops
  | rb, Op.read :: ops => noFullWrite (ring_buffer_read_byte rb).2 ops
  | _, Op.reset :: _ => false

/-! Basic lemmas about the embedded operations. -/

/-- Reduction of one modulo step: a value below twice the modulus reduces by
at most one subtraction. -/
lemma mod_cases (C a : Nat) (h2 : a < 2 * C) : a % C = if a < C then a else a - C := by
  by_cases hac : a < C
  · simp [hac, Nat.mod_eq_of_lt hac]
  · have hca : C ≤ a := Nat.le_of_not_lt hac
    rw [Nat.mod_eq_sub_mod hca, Nat.mod_eq_of_lt (by omega)]
    simp [hac]

/-- Explicit form of `advance_head_pointer` as a record value. -/
lemma advance_head_pointer_eq (rb : RingBuf) :
    advance_head_pointer rb =
      ⟨rb.buffer, rb.capacity,
       (if rb.is_full = true then (rb.tail + 1) % rb.capacity else rb.tail),
       (rb.head + 1) % rb.capacity,
       ((rb.head + 1) % rb.capacity ==
         (if rb.is_full = true then (rb.tail + 1) % rb.capacity else rb.tail))⟩ := by
  cases hf : rb.is_full <;>
    simp [advance_head_pointer, ring_buffer_is_full, advance_headtail_value, hf]

/-- Explicit form of `ring_buffer_write_byte` as a record value. -/
lemma write_byte_eq (rb : RingBuf) (d : Nat) :
    ring_buffer_write_byte rb d =
      ⟨(fun j => if j = rb.head then d else rb.buffer j), rb.capacity,
       (if rb.is_full = true then (rb.tail + 1) % rb.capacity else rb.tail),
       (rb.head + 1) % rb.capacity,
       ((rb.head + 1) % rb.capacity ==
         (if rb.is_full = true then (rb.tail + 1) % rb.capacity else rb.tail))⟩ := by
  rw [ring_buffer_write_byte, advance_head_pointer_eq]

/-- Explicit form of `ring_buffer_read_byte` on a non-empty buffer. -/
lemma read_byte_not_empty (rb : RingBuf) (h : ring_buffer_is_empty rb = false) :
    ring_buffer_read_byte rb =
      (some (rb.buffer rb.tail),
       { rb with tail := (rb.tail + 1) % rb.capacity, is_full := false }) := by
  simp [ring_buffer_read_byte, h, advance_headtail_value]

/-- Explicit form of `ring_buffer_read_byte` on an empty buffer: the failure
result together with the completely unchanged state. -/
lemma read_byte_empty (rb : RingBuf) (h : ring_buffer_is_empty rb = true) :
    ring_buffer_read_byte rb = (none, rb) := by
  simp [ring_buffer_read_byte, h]

/-- The length of the abstract content equals `ring_buffer_size`. -/
lemma length_toList (rb : RingBuf) : (toList rb).length = ring_buffer_size rb := by
  simp [toList]

/-- Under the invariant the reported size never exceeds the capacity. -/
lemma size_le_capacity (rb : RingBuf) (h : Inv rb) :
    ring_buffer_size rb ≤ rb.capacity := by
  obtain ⟨hC, hh, ht, hf⟩ := h
  unfold ring_buffer_size ring_buffer_is_full
  cases rb.is_full <;> simp
  split <;> omega

/-- A freshly initialized buffer satisfies the invariant. -/
lemma inv_init (buffer : Nat → Nat) (size : Nat) (h : 0 < size) :
    Inv (ring_buffer_init buffer size) := by
  simp [Inv, ring_buffer_init, ring_buffer_reset, h]

/-- Reset preserves the invariant. -/
lemma inv_reset (rb : RingBuf) (h : Inv rb) : Inv (ring_buffer_reset rb) := by
  obtain ⟨hC, _, _, _⟩ := h
  simp [Inv, ring_buffer_reset, hC]

/-- Writing a byte preserves the invariant. -/
lemma inv_write (rb : RingBuf) (d : Nat) (h : Inv rb) :
    Inv (ring_buffer_write_byte rb d) := by
  obtain ⟨hC, hh, ht, hf⟩ := h
  rw [write_byte_eq]
  refine ⟨hC, Nat.mod_lt _ hC, ?_, ?_⟩
  · cases hfl : rb.is_full
    · simpa using ht
    · simpa using Nat.mod_lt _ hC
  · intro hfull
    simpa using of_decide_eq_true hfull

/-- Reading a byte preserves the invariant. -/
lemma inv_read (rb : RingBuf) (h : Inv rb) : Inv (ring_buffer_read_byte rb).2 := by
  obtain ⟨hC, hh, ht, hf⟩ := h
  cases he : ring_buffer_is_empty rb
  · rw [read_byte_not_empty rb he]
    exact ⟨hC, hh, Nat.mod_lt _ hC, by simp⟩
  · rw [read_byte_empty rb he]
    exact ⟨hC, hh, ht, hf⟩

/-- Closed form of `ring_buffer_size` as nested conditionals on the fields. -/
lemma size_eq (rb : RingBuf) :
    ring_buffer_size rb = if rb.is_full = true then rb.capacity
      else if rb.head ≥ rb.tail then rb.head - rb.tail
      else rb.capacity + rb.head - rb.tail := by
  cases hfl : rb.is_full <;> simp [ring_buffer_size, ring_buffer_is_full, hfl]

/-- Writing into a buffer that is not full increases the size by one. -/
lemma size_write_of_not_full (rb : RingBuf) (d : Nat) (h : Inv rb)
    (hnf : rb.is_full = false) :
    ring_buffer_size (ring_buffer_write_byte rb d) = ring_buffer_size rb + 1 := by
  obtain ⟨hC, hh, ht, hf⟩ := h
  simp only [write_byte_eq, hnf, size_eq, beq_iff_eq, Bool.false_eq_true, if_false]
  rw [mod_cases rb.capacity (rb.head + 1) (by omega)]
  split_ifs <;> omega

/-- Writing into a full buffer keeps the size equal to the capacity. -/
lemma size_write_of_full (rb : RingBuf) (d : Nat) (h : Inv rb)
    (hfl : rb.is_full = true) :
    ring_buffer_size (ring_buffer_write_byte rb d) = rb.capacity := by
  obtain ⟨hC, hh, ht, hf⟩ := h
  have hht : rb.head = rb.tail := hf hfl
  simp [write_byte_eq, hfl, size_eq, hht]

/-- Writing into a full buffer leaves the full flag set. -/
lemma is_full_write_of_full (rb : RingBuf) (d : Nat) (h : Inv rb)
    (hfl : rb.is_full = true) :
    (ring_buffer_write_byte rb d).is_full = true := by
  obtain ⟨hC, hh, ht, hf⟩ := h
  have hht : rb.head = rb.tail := hf hfl
  simp [write_byte_eq, hfl, hht]

/-- Writing into a full buffer advances the read index. -/
lemma tail_write_of_full (rb : RingBuf) (d : Nat) (hfl : rb.is_full = true) :
    (ring_buffer_write_byte rb d).tail = (rb.tail + 1) % rb.capacity := by
  simp [write_byte_eq, hfl]

/-- Reading from a non-empty buffer decreases the size by one. -/
lemma size_read_of_not_empty (rb : RingBuf) (h : Inv rb)
    (he : ring_buffer_is_empty rb = false) :
    ring_buffer_size (ring_buffer_read_byte rb).2 + 1 = ring_buffer_size rb := by
  obtain ⟨hC, hh, ht, hf⟩ := h
  have he2 : rb.is_full = true ∨ ¬rb.head = rb.tail := by
    by_contra hcon
    push_neg at hcon
    simp [ring_buffer_is_empty, ring_buffer_is_full, hcon.1, hcon.2] at he
  rw [read_byte_not_empty rb he]
  cases hfl : rb.is_full
  · have hne : ¬rb.head = rb.tail := by
      rcases he2 with h1 | h1
      · rw [hfl] at h1; exact absurd h1 (by simp)
      · exact h1
    simp only [size_eq, hfl, Bool.false_eq_true, if_false]
    rw [mod_cases rb.capacity (rb.tail + 1) (by omega)]
    split_ifs <;> omega
  · have hht : rb.head = rb.tail := hf hfl
    simp only [size_eq, hfl, Bool.false_eq_true, if_false, if_true]
    rw [mod_cases rb.capacity (rb.tail + 1) (by omega)]
    split_ifs <;> omega

/-- The empty observer agrees with a zero size (needs the invariant). -/
lemma isEmpty_iff_size_zero (rb : RingBuf) (h : Inv rb) :
    ring_buffer_is_empty rb = true ↔ ring_buffer_size rb = 0 := by
  obtain ⟨hC, hh, ht, hf⟩ := h
  cases hfl : rb.is_full
  · simp only [ring_buffer_is_empty, ring_buffer_is_full, hfl, Bool.not_false,
      Bool.true_and, beq_iff_eq, size_eq, Bool.false_eq_true, if_false]
    split_ifs <;> omega
  · simp only [ring_buffer_is_empty, ring_buffer_is_full, hfl, Bool.not_true,
      Bool.false_and, size_eq, if_true]
    simp
    omega

/-- The full observer agrees with a size equal to the capacity (needs the
invariant). -/
lemma isFull_iff_size_capacity (rb : RingBuf) (h : Inv rb) :
    ring_buffer_is_full rb = true ↔ ring_buffer_size rb = rb.capacity := by
  obtain ⟨hC, hh, ht, hf⟩ := h
  cases hfl : rb.is_full
  · have hlt : ring_buffer_size rb < rb.capacity := by
      rw [size_eq, hfl]
      simp only [Bool.false_eq_true, if_false]
      split_ifs <;> omega
    simp only [ring_buffer_is_full, hfl, Bool.false_eq_true, false_iff]
    omega
  · simp [ring_buffer_is_full, hfl, size_eq]

/-- A freshly initialized buffer has empty logical content. -/
lemma toList_init (buf : Nat → Nat) (C : Nat) : toList (ring_buffer_init buf C) = [] := by
  rfl

/-- The logical content is empty exactly when the empty observer fires. -/
lemma toList_eq_nil_iff (rb : RingBuf) (h : Inv rb) :
    toList rb = [] ↔ ring_buffer_is_empty rb = true := by
  rw [isEmpty_iff_size_zero rb h, ← length_toList, List.length_eq_zero]

/-- In a buffer that is not full, the slot `size` steps past the tail is the
head slot. -/
lemma tail_add_size_mod (rb : RingBuf) (h : Inv rb) (hnf : rb.is_full = false) :
    (rb.tail + ring_buffer_size rb) % rb.capacity = rb.head := by
  obtain ⟨hC, hh, ht, hf⟩ := h
  rw [size_eq, hnf]
  simp only [Bool.false_eq_true, if_false]
  by_cases hge : rb.head ≥ rb.tail
  · rw [if_pos hge]
    have h1 : rb.tail + (rb.head - rb.tail) = rb.head := by omega
    rw [h1, Nat.mod_eq_of_lt hh]
  · rw [if_neg hge]
    have h1 : rb.tail + (rb.capacity + rb.head - rb.tail) = rb.head + rb.capacity := by
      omega
    rw [h1, Nat.add_mod_right, Nat.mod_eq_of_lt hh]

/-- In a buffer that is not full, no occupied slot coincides with the head
slot. -/
lemma occupied_ne_head (rb : RingBuf) (h : Inv rb) (hnf : rb.is_full = false)
    (i : Nat) (hi : i < ring_buffer_size rb) :
    (rb.tail + i) % rb.capacity ≠ rb.head := by
  obtain ⟨hC, hh, ht, hf⟩ := h
  rw [size_eq, hnf] at hi
  simp only [Bool.false_eq_true, if_false] at hi
  by_cases hge : rb.head ≥ rb.tail
  · rw [if_pos hge] at hi
    rw [Nat.mod_eq_of_lt (by omega)]
    omega
  · rw [if_neg hge] at hi
    rw [mod_cases rb.capacity (rb.tail + i) (by omega)]
    split_ifs <;> omega

/-- Writing into a buffer that is not full appends the byte to the logical
content. -/
lemma toList_write_of_not_full (rb : RingBuf) (d : Nat) (h : Inv rb)
    (hnf : rb.is_full = false) :
    toList (ring_buffer_write_byte rb d) = toList rb ++ [d] := by
  apply List.ext_getElem
  · simp only [toList, List.length_map, List.length_range, List.length_append,
      List.length_cons, List.length_nil]
    rw [size_write_of_not_full rb d h hnf]
  · intro i h1 h2
    have hlen : i < ring_buffer_size rb + 1 := by
      simpa [toList, size_write_of_not_full rb d h hnf] using h1
    simp only [toList, List.getElem_map, List.getElem_range]
    simp only [write_byte_eq, hnf, Bool.false_eq_true, if_false]
    rcases Nat.lt_or_ge i (ring_buffer_size rb) with hi | hi
    · rw [List.getElem_append_left (by simpa [toList] using hi)]
      simp only [toList, List.getElem_map, List.getElem_range]
      rw [if_neg (occupied_ne_head rb h hnf i hi)]
    · have hi2 : i = ring_buffer_size rb := by omega
      subst hi2
      rw [List.getElem_append_right (by simp [toList])]
      simp only [toList, List.length_map, List.length_range]
      rw [if_pos (tail_add_size_mod rb h hnf)]
      simp

/-- Writing into a full buffer evicts the oldest byte and appends the new
one to the logical content. -/
lemma toList_write_of_full (rb : RingBuf) (d : Nat) (h : Inv rb)
    (hfl : rb.is_full = true) :
    toList (ring_buffer_write_byte rb d) = (toList rb).drop 1 ++ [d] := by
  obtain ⟨hC, hh, ht, hf⟩ := h
  have hht : rb.head = rb.tail := hf hfl
  apply List.ext_getElem
  · simp only [toList, List.length_map, List.length_range, List.length_append,
      List.length_drop, List.length_cons, List.length_nil]
    rw [size_write_of_full rb d ⟨hC, hh, ht, hf⟩ hfl, size_eq, hfl]
    simp only [if_true]
    omega
  · intro i h1 h2
    have hiC : i < rb.capacity := by
      simpa [toList, size_write_of_full rb d ⟨hC, hh, ht, hf⟩ hfl] using h1
    have hlend : (List.drop 1 (toList rb)).length = rb.capacity - 1 := by
      simp only [List.length_drop, length_toList, size_eq, hfl, if_true]
    simp only [toList, List.getElem_map, List.getElem_range]
    simp only [write_byte_eq, hfl, if_true]
    rw [Nat.mod_add_mod]
    rcases Nat.lt_or_ge i (rb.capacity - 1) with hi | hi
    · have hb1 : i < (List.drop 1 (toList rb)).length := by omega
      rw [List.getElem_append_left (by simpa only [toList] using hb1), List.getElem_drop]
      simp only [List.getElem_map, List.getElem_range]
      have hne : (rb.tail + 1 + i) % rb.capacity ≠ rb.head := by
        rw [hht]
        rw [mod_cases rb.capacity (rb.tail + 1 + i) (by omega)]
        split_ifs <;> omega
      rw [if_neg hne]
      have harg : rb.tail + 1 + i = rb.tail + (1 + i) := by omega
      rw [harg]
    · have hi2 : i = rb.capacity - 1 := by omega
      subst hi2
      have hb2 : (List.drop 1 (toList rb)).length ≤ rb.capacity - 1 := by omega
      rw [List.getElem_append_right (by simpa only [toList] using hb2)]
      have heq : (rb.tail + 1 + (rb.capacity - 1)) % rb.capacity = rb.head := by
        rw [hht]
        have h3 : rb.tail + 1 + (rb.capacity - 1) = rb.tail + rb.capacity := by omega
        rw [h3, Nat.add_mod_right, Nat.mod_eq_of_lt ht]
      rw [if_pos heq]
      simp

/-- Reading a buffer whose logical content starts with `d` succeeds with `d`
and leaves exactly the remaining content. -/
lemma read_of_toList_cons (rb : RingBuf) (d : Nat) (rest : List Nat) (h : Inv rb)
    (hl : toList rb = d :: rest) :
    (ring_buffer_read_byte rb).1 = some d ∧
      toList (ring_buffer_read_byte rb).2 = rest := by
  have he : ring_buffer_is_empty rb = false := by
    cases he0 : ring_buffer_is_empty rb
    · rfl
    · exfalso
      have hnil := (toList_eq_nil_iff rb h).mpr he0
      rw [hl] at hnil
      exact List.cons_ne_nil d rest hnil
  have ht : rb.tail < rb.capacity := h.2.2.1
  have hsz := size_read_of_not_empty rb h he
  have h0 : rb.buffer rb.tail = d := by
    have hlen0 : 0 < (toList rb).length := by
      rw [hl]
      simp
    have h0b : (toList rb)[0] = d := by simp [hl]
    simp only [toList, List.getElem_map, List.getElem_range] at h0b
    rwa [Nat.add_zero, Nat.mod_eq_of_lt ht] at h0b
  rw [read_byte_not_empty rb he] at hsz ⊢
  dsimp only at hsz
  refine ⟨by simpa using h0, ?_⟩
  apply List.ext_getElem
  · simp only [toList, List.length_map, List.length_range]
    have hlen : ring_buffer_size rb = rest.length + 1 := by
      rw [← length_toList, hl]
      simp
    omega
  · intro i h1 h2
    simp only [toList, List.getElem_map, List.getElem_range]
    rw [Nat.mod_add_mod]
    have hr : rest[i] = rb.buffer ((rb.tail + (i + 1)) % rb.capacity) := by
      have hlen1 : i + 1 < (toList rb).length := by
        rw [hl]
        simpa using h2
      have hcons : (toList rb)[i + 1] = rest[i] := by
        simp [hl]
      simp only [toList, List.getElem_map, List.getElem_range] at hcons
      exact hcons.symm
    have harg : rb.tail + 1 + i = rb.tail + (i + 1) := by omega
    rw [harg, hr]

/-- Every reachable state satisfies the invariant. -/
lemma reachable_inv (rb : RingBuf) (h : Reachable rb) : Inv rb := by
  induction h with
  | init buffer size h => exact inv_init buffer size h
  | write rb d _ ih => exact inv_write rb d ih
  | read rb _ ih => exact inv_read rb ih
  | reset rb _ ih => exact inv_reset rb ih

/-- The capacity field is preserved by a write. -/
lemma capacity_write (rb : RingBuf) (d : Nat) :
    (ring_buffer_write_byte rb d).capacity = rb.capacity := by
  rw [write_byte_eq]

/-- The capacity field is preserved by a read. -/
lemma capacity_read (rb : RingBuf) :
    (ring_buffer_read_byte rb).2.capacity = rb.capacity := by
  cases he : ring_buffer_is_empty rb
  · rw [read_byte_not_empty rb he]
  · rw [read_byte_empty rb he]

/-- Writing a list of bytes into a buffer with enough free room appends the
list to the logical content and preserves the invariant. -/
lemma toList_writeList (ds : List Nat) : ∀ rb : RingBuf, Inv rb →
    (toList rb).length + ds.length ≤ rb.capacity →
    toList (writeList rb ds) = toList rb ++ ds ∧ Inv (writeList rb ds) := by
  induction ds with
  | nil =>
    intro rb h _
    exact ⟨by simp [writeList], h⟩
  | cons d ds ih =>
    intro rb h hle
    have hsz : ring_buffer_size rb < rb.capacity := by
      rw [← length_toList]
      simp only [List.length_cons] at hle
      omega
    have hnf : rb.is_full = false := by
      cases hfl : rb.is_full
      · rfl
      · exfalso
        have hcap := (isFull_iff_size_capacity rb h).mp
          (by simpa [ring_buffer_is_full] using hfl)
        omega
    have hw := toList_write_of_not_full rb d h hnf
    have hinv := inv_write rb d h
    have hlen2 : (toList (ring_buffer_write_byte rb d)).length + ds.length ≤
        (ring_buffer_write_byte rb d).capacity := by
      rw [hw, capacity_write]
      simp only [List.length_append, List.length_cons, List.length_nil] at hle ⊢
      omega
    obtain ⟨ha, hb⟩ := ih (ring_buffer_write_byte rb d) hinv hlen2
    constructor
    · show toList (writeList (ring_buffer_write_byte rb d) ds) = _
      rw [ha, hw]
      simp
    · exact hb

/-- Reading back as many bytes as the logical content holds returns exactly
that content, every read succeeding. -/
lemma readN_of_toList (l : List Nat) : ∀ rb : RingBuf, Inv rb → toList rb = l →
    (readN rb l.length).1 = l.map some := by
  induction l with
  | nil =>
    intro rb _ _
    simp [readN]
  | cons d rest ih =>
    intro rb h hl
    obtain ⟨h1, h2⟩ := read_of_toList_cons rb d rest h hl
    have hinv := inv_read rb h
    have ha := ih (ring_buffer_read_byte rb).2 hinv h2
    simp only [List.length_cons, readN, List.map_cons]
    rw [h1, ha]

/-- The capacity field is preserved by any single API call. -/
lemma capacity_applyOp (rb : RingBuf) (op : Op) :
    (applyOp rb op).capacity = rb.capacity := by
  cases op with
  | write d => exact capacity_write rb d
  | read => exact capacity_read rb
  | reset => rfl

/-- The capacity field is preserved by any trace of API calls. -/
lemma capacity_runOps (ops : List Op) : ∀ rb : RingBuf,
    (runOps rb ops).capacity = rb.capacity := by
  induction ops with
  | nil => intro rb; rfl
  | cons op ops ih =>
    intro rb
    show (runOps (applyOp rb op) ops).capacity = rb.capacity
    rw [ih, capacity_applyOp]

/-- Accounting along a trace with no writes on a full buffer: the final size
plus the successful reads equals the initial size plus the writes, and the
invariant is preserved. -/
lemma run_accounting (ops : List Op) : ∀ rb : RingBuf, Inv rb →
    noFullWrite rb ops = true →
    ring_buffer_size (runOps rb ops) + succReads rb ops =
      ring_buffer_size rb + numWrites ops ∧ Inv (runOps rb ops) := by
  induction ops with
  | nil =>
    intro rb h _
    exact ⟨by simp [runOps, succReads, numWrites], h⟩
  | cons op ops ih =>
    intro rb h hnfw
    cases op with
    | write d =>
      rw [noFullWrite, Bool.and_eq_true] at hnfw
      have hfl : rb.is_full = false := by
        have := hnfw.1
        simpa [ring_buffer_is_full] using this
      have hw := size_write_of_not_full rb d h hfl
      obtain ⟨ha, hb⟩ := ih (ring_buffer_write_byte rb d) (inv_write rb d h) hnfw.2
      refine ⟨?_, hb⟩
      show ring_buffer_size (runOps (ring_buffer_write_byte rb d) ops) +
        succReads (ring_buffer_write_byte rb d) ops =
        ring_buffer_size rb + (numWrites ops + 1)
      omega
    | read =>
      rw [noFullWrite] at hnfw
      obtain ⟨ha, hb⟩ := ih (ring_buffer_read_byte rb).2 (inv_read rb h) hnfw
      cases he : ring_buffer_is_empty rb
      · have hone : (if (ring_buffer_read_byte rb).1 = none then 0 else 1) = 1 := by
          rw [read_byte_not_empty rb he]
          simp
        have hsz := size_read_of_not_empty rb h he
        refine ⟨?_, hb⟩
        show ring_buffer_size (runOps (ring_buffer_read_byte rb).2 ops) +
          ((if (ring_buffer_read_byte rb).1 = none then 0 else 1) +
            succReads (ring_buffer_read_byte rb).2 ops) =
          ring_buffer_size rb + numWrites ops
        rw [hone]
        omega
      · have hre := read_byte_empty rb he
        refine ⟨?_, hb⟩
        show ring_buffer_size (runOps (ring_buffer_read_byte rb).2 ops) +
          ((if (ring_buffer_read_byte rb).1 = none then 0 else 1) +
            succReads (ring_buffer_read_byte rb).2 ops) =
          ring_buffer_size rb + numWrites ops
        rw [hre] at ha ⊢
        dsimp only at ha ⊢
        simp only [if_true]
        omega
    | reset =>
      rw [noFullWrite] at hnfw
      exact absurd hnfw (by simp)

/-! Statements of the claims. -/

/-- C1: FIFO round trip.  Initializing a buffer with capacity `C > 0` and
writing any sequence of `N ≤ C` bytes, then performing `N` reads, makes
every read succeed and return the written bytes in the same order with the
same values. -/
theorem fifo_round_trip (buf : Nat → Nat) (C : Nat) (ds : List Nat)
    (hC : 0 < C) (hlen : ds.length ≤ C) :
    (readN (writeList (ring_buffer_init buf C) ds) ds.length).1 = ds.map some := by
  have hinv := inv_init buf C hC
  obtain ⟨ha, hb⟩ := toList_writeList ds (ring_buffer_init buf C) hinv
    (by simpa [toList_init] using hlen)
  exact readN_of_toList ds _ hb (by simpa [toList_init] using ha)

/-- Witness for C1 at a concrete input: three bytes round-trip through a
capacity-3 buffer. -/
theorem fifo_round_trip_witness :
    (readN (writeList (ring_buffer_init (fun _ => 0) 3) [7, 8, 9]) 3).1 =
      [some 7, some 8, some 9] :=
  fifo_round_trip (fun _ => 0) 3 [7, 8, 9] (by decide) (by decide)

/-- C5: reading an empty buffer fails with the `-1` result and leaves the
entire state, bytes included, unchanged. -/
theorem empty_read_fails_unchanged (rb : RingBuf)
    (h : ring_buffer_is_empty rb = true) :
    ring_buffer_read_byte rb = (none, rb) :=
  read_byte_empty rb h

/-- Witness for C5: a freshly initialized capacity-4 buffer. -/
theorem empty_read_fails_unchanged_witness :
    ring_buffer_read_byte (ring_buffer_init (fun _ => 0) 4) =
      (none, ring_buffer_init (fun _ => 0) 4) :=
  empty_read_fails_unchanged (ring_buffer_init (fun _ => 0) 4) (by decide)

/-- C6: reset makes the buffer empty with size zero, is idempotent, and
never modifies the bytes held in the caller-supplied storage. -/
theorem reset_empties_idempotent_pure (rb : RingBuf) :
    ring_buffer_is_empty (ring_buffer_reset rb) = true ∧
      ring_buffer_size (ring_buffer_reset rb) = 0 ∧
      ring_buffer_reset (ring_buffer_reset rb) = ring_buffer_reset rb ∧
      (ring_buffer_reset rb).buffer = rb.buffer :=
  ⟨rfl, rfl, rfl, rfl⟩

/-- C2: overwrite-on-full policy.  On any full valid buffer the write call
succeeds: it stores the new byte at the head slot, evicts the oldest byte by
advancing the read index, keeps the size at the capacity and the full flag
set; concretely, with capacity 16, writing bytes 0..15 and then byte 0x61
leaves size 16, the full flag set, and the next read returns byte 1. -/
theorem overwrite_on_full (rb : RingBuf) (d : Nat) (h : Inv rb)
    (hfl : ring_buffer_is_full rb = true) :
    toList (ring_buffer_write_byte rb d) = (toList rb).drop 1 ++ [d] ∧
    ring_buffer_size (ring_buffer_write_byte rb d) = ring_buffer_capacity rb ∧
    ring_buffer_is_full (ring_buffer_write_byte rb d) = true ∧
    (ring_buffer_write_byte rb d).tail = (rb.tail + 1) % rb.capacity ∧
    (ring_buffer_write_byte rb d).buffer rb.head = d ∧
    (ring_buffer_size (ring_buffer_write_byte
        (writeList (ring_buffer_init (fun _ => 0) 16)
          [0, 1, 2, 3, 4, 5, 6, 7, 8, 9, 10, 11, 12, 13, 14, 15]) 97) = 16 ∧
      ring_buffer_is_full (ring_buffer_write_byte
        (writeList (ring_buffer_init (fun _ => 0) 16)
          [0, 1, 2, 3, 4, 5, 6, 7, 8, 9, 10, 11, 12, 13, 14, 15]) 97) = true ∧
      (ring_buffer_read_byte (ring_buffer_write_byte
        (writeList (ring_buffer_init (fun _ => 0) 16)
          [0, 1, 2, 3, 4, 5, 6, 7, 8, 9, 10, 11, 12, 13, 14, 15]) 97)).1 = some 1) := by
  have hfl2 : rb.is_full = true := by simpa [ring_buffer_is_full] using hfl
  refine ⟨toList_write_of_full rb d h hfl2, size_write_of_full rb d h hfl2, ?_,
    tail_write_of_full rb d hfl2, ?_, by decide⟩
  · simpa [ring_buffer_is_full] using is_full_write_of_full rb d h hfl2
  · rw [write_byte_eq]
    simp

/-- Witness for C2: a full valid capacity-2 buffer. -/
theorem overwrite_on_full_witness :
    ring_buffer_size
      (ring_buffer_write_byte (RingBuf.mk (fun _ => 0) 2 0 0 true) 5) = 2 :=
  (overwrite_on_full (RingBuf.mk (fun _ => 0) 2 0 0 true) 5
    (by decide) (by decide)).2.1

/-- C3 counterexample: the claim as stated fails.  With capacity 1, the
trace of one (failing) read followed by three writes keeps the number of
unread bytes within the capacity at every step (the only constraint the
claim imposes, vacuous in this overwriting variant); every write call
succeeds and stores its byte, so there are 3 successful writes and 1 read
performed, yet the final size is 1 and not 3 - 1 = 2. -/
theorem size_accounting_counterexample :
    sizeWithinCapacity (ring_buffer_init (fun _ => 0) 1)
        [Op.read, Op.write 5, Op.write 6, Op.write 7] = true ∧
      numWrites [Op.read, Op.write 5, Op.write 6, Op.write 7] = 3 ∧
      numReads [Op.read, Op.write 5, Op.write 6, Op.write 7] = 1 ∧
      ring_buffer_size (runOps (ring_buffer_init (fun _ => 0) 1)
        [Op.read, Op.write 5, Op.write 6, Op.write 7]) = 1 ∧
      (1 : Nat) ≠ 3 - 1 := by
  decide

/-- C3 amended: for every buffer initialized with capacity `C > 0` and every
interleaved trace of write and read calls in which no write happens while
the buffer is full, the final size equals the number of writes minus the
number of successful reads; moreover the size never exceeds the capacity. -/
theorem size_accounting (buf : Nat → Nat) (C : Nat) (ops : List Op) (hC : 0 < C)
    (h : noFullWrite (ring_buffer_init buf C) ops = true) :
    ring_buffer_size (runOps (ring_buffer_init buf C) ops) =
      numWrites ops - succReads (ring_buffer_init buf C) ops ∧
    succReads (ring_buffer_init buf C) ops ≤ numWrites ops ∧
    ring_buffer_size (runOps (ring_buffer_init buf C) ops) ≤ C := by
  have hinv := inv_init buf C hC
  obtain ⟨ha, hb⟩ := run_accounting ops (ring_buffer_init buf C) hinv h
  have hsz0 : ring_buffer_size (ring_buffer_init buf C) = 0 := rfl
  rw [hsz0] at ha
  have hle := size_le_capacity _ hb
  rw [capacity_runOps] at hle
  have hcap : (ring_buffer_init buf C).capacity = C := rfl
  rw [hcap] at hle
  exact ⟨by omega, by omega, by omega⟩

/-- Witness for C3 amended: a capacity-2 buffer with three writes and two
successful reads interleaved, ending with one unread byte. -/
theorem size_accounting_witness :
    ring_buffer_size (runOps (ring_buffer_init (fun _ => 0) 2)
        [Op.write 3, Op.read, Op.write 4, Op.write 5, Op.read]) =
      numWrites [Op.write 3, Op.read, Op.write 4, Op.write 5, Op.read] -
        succReads (ring_buffer_init (fun _ => 0) 2)
          [Op.write 3, Op.read, Op.write 4, Op.write 5, Op.read] :=
  (size_accounting (fun _ => 0) 2
    [Op.write 3, Op.read, Op.write 4, Op.write 5, Op.read]
    (by decide) (by decide)).1

/-- C4: observer consistency.  On every reachable state the empty observer
fires exactly when the size is zero, and the full observer fires exactly
when the size equals the capacity. -/
theorem observer_consistency (rb : RingBuf) (h : Reachable rb) :
    (ring_buffer_is_empty rb = true ↔ ring_buffer_size rb = 0) ∧
    (ring_buffer_is_full rb = true ↔
      ring_buffer_size rb = ring_buffer_capacity rb) := by
  have hinv := reachable_inv rb h
  exact ⟨isEmpty_iff_size_zero rb hinv, isFull_iff_size_capacity rb hinv⟩

/-- Witness for C4: a freshly initialized capacity-4 buffer is empty. -/
theorem observer_consistency_witness :
    ring_buffer_is_empty (ring_buffer_init (fun _ => 0) 4) = true :=
  (observer_consistency (ring_buffer_init (fun _ => 0) 4)
    (Reachable.init (fun _ => 0) 4 (by decide))).1.mpr (by decide)

/-- C7: index bounds.  On every reachable state (after initialization with a
positive capacity and any number of write, read and reset calls) both the
read index and the write index are strictly below the capacity. -/
theorem index_bounds (rb : RingBuf) (h : Reachable rb) :
    rb.head < rb.capacity ∧ rb.tail < rb.capacity := by
  have hinv := reachable_inv rb h
  exact ⟨hinv.2.1, hinv.2.2.1⟩

/-- Witness for C7: the freshly initialized capacity-4 buffer. -/
theorem index_bounds_witness :
    (ring_buffer_init (fun _ => 0) 4).head < 4 ∧
      (ring_buffer_init (fun _ => 0) 4).tail < 4 :=
  index_bounds (ring_buffer_init (fun _ => 0) 4)
    (Reachable.init (fun _ => 0) 4 (by decide))

/-- C8: full-flag invariant.  On every reachable state the full flag implies
that the indices coincide, and after any write the full flag is set exactly
when the write advanced the head into the tail. -/
theorem full_flag_invariant (rb : RingBuf) (d : Nat) (h : Reachable rb) :
    (rb.is_full = true → rb.head = rb.tail) ∧
    ((ring_buffer_write_byte rb d).is_full = true ↔
      (ring_buffer_write_byte rb d).head = (ring_buffer_write_byte rb d).tail) := by
  have hinv := reachable_inv rb h
  refine ⟨hinv.2.2.2, ?_⟩
  rw [write_byte_eq]
  simp

/-- Witness for C8: one write into a freshly initialized capacity-4
buffer. -/
theorem full_flag_invariant_witness :
    (ring_buffer_write_byte (ring_buffer_init (fun _ => 0) 4) 0).is_full = true ↔
      (ring_buffer_write_byte (ring_buffer_init (fun _ => 0) 4) 0).head =
        (ring_buffer_write_byte (ring_buffer_init (fun _ => 0) 4) 0).tail :=
  (full_flag_invariant (ring_buffer_init (fun _ => 0) 4) 0
    (Reachable.init (fun _ => 0) 4 (by decide))).2

/-- C9: capacity constancy.  The capacity observer returns the initial
capacity after initialization and after every trace of write, read and
reset calls. -/
theorem capacity_constant (buf : Nat → Nat) (C : Nat) (ops : List Op) :
    ring_buffer_capacity (runOps (ring_buffer_init buf C) ops) = C := by
  rw [ring_buffer_capacity, capacity_runOps]
  rfl

/-- C10: every successful read (C result `0`) clears the full flag, so right
after it the buffer is not full and its size is strictly below the
capacity. -/
theorem read_clears_full (rb : RingBuf) (h : Inv rb)
    (hs : (ring_buffer_read_byte rb).1 ≠ none) :
    ring_buffer_is_full (ring_buffer_read_byte rb).2 = false ∧
    ring_buffer_size (ring_buffer_read_byte rb).2 <
      ring_buffer_capacity (ring_buffer_read_byte rb).2 := by
  have he : ring_buffer_is_empty rb = false := by
    cases he0 : ring_buffer_is_empty rb
    · rfl
    · exfalso
      rw [read_byte_empty rb he0] at hs
      exact hs rfl
  have hsz := size_read_of_not_empty rb h he
  have hle := size_le_capacity rb h
  constructor
  · rw [read_byte_not_empty rb he]
    rfl
  · rw [ring_buffer_capacity, capacity_read]
    omega

/-- Witness for C10: a valid capacity-4 buffer holding one byte. -/
theorem read_clears_full_witness :
    ring_buffer_is_full
      (ring_buffer_read_byte (RingBuf.mk (fun _ => 7) 4 0 1 false)).2 = false :=
  (read_clears_full (RingBuf.mk (fun _ => 7) 4 0 1 false)
    (by decide) (by decide)).1

end RingBufferC
